import Mathlib

/-!
Shallow embedding of `src/main.py`: an in-memory file-system tree
(`FileSystemNode` / `FileSystem`) with `create`, `delete`, `list_directory`,
`search`, `set_permissions`, `get_permissions`.

Modelling conventions:
* Python `dict` (insertion-ordered, unique keys) is modelled as an
  association list `List (String × α)`; `d.get k` is `lookupA`, the
  assignment `d[k] = v` is `setA` (replace in place when the key is present,
  append otherwise), `del d[k]` is `eraseA`.
* Python strings are Lean `String`; `path.strip("/")` is `pyStripSlash` and
  `.split("/")` is `pySplitSlash` (both defined below with Python's
  semantics, e.g. `"".split("/") == [""]`).
* Every `raise ValueError(msg)` site is a distinct constructor of `Err`.
* In-place mutation is modelled by rebuilding the tree along the traversed
  path.  `FileSystem.create` returns the (possibly modified) tree *and* an
  optional error, mirroring the fact that the Python method mutates the tree
  even when it later raises; the other mutators only mutate on success and
  are given `Except` results.
-/

/-- lookup in an insertion-ordered association list: Python `d.get(k)`. -/
def lookupA {α : Type} : List (String × α) → String → Option α
  | [], _ => none
  | (k, v) :: rest, s => if k = s then some v else lookupA rest s

/-- assignment `d[k] = v` on a Python dict: replace the value of an existing
key in place, otherwise append the new binding at the end. -/
def setA {α : Type} : List (String × α) → String → α → List (String × α)
  | [], k, v => [(k, v)]
  | (k', v') :: rest, k, v =>
      if k' = k then (k', v) :: rest else (k', v') :: setA rest k v

/-- deletion `del d[k]` on a Python dict (keys are unique, so removing the
first occurrence is removal of the key). -/
def eraseA {α : Type} : List (String × α) → String → List (String × α)
  | [], _ => []
  | (k', v') :: rest, k => if k' = k then rest else (k', v') :: eraseA rest k

/-- Python `s.strip("/")`: drop the maximal runs of '/' characters at both
ends of the string. -/
def pyStripSlash (s : String) : String :=
  String.mk (((s.toList.dropWhile (· = '/')).reverse.dropWhile (· = '/')).reverse)

/-- accumulator for `pySplitSlash`; `acc` holds the current segment reversed. -/
def splitSlashAux : List Char → List Char → List String
  | [], acc => [String.mk acc.reverse]
  | c :: rest, acc =>
      if c = '/' then String.mk acc.reverse :: splitSlashAux rest []
      else splitSlashAux rest (c :: acc)

/-- Python `s.split("/")`: note that `"".split("/") == [""]`, so the result
is always a non-empty list. -/
def pySplitSlash (s : String) : List String :=
  splitSlashAux s.toList []

/-- the segment list `path.strip("/").split("/")` computed by every
`FileSystem` operation. -/
def pathParts (path : String) : List String :=
  pySplitSlash (pyStripSlash path)

/-- one raised `ValueError` per constructor (Python messages in comments). -/
inductive Err where
  /-- `Cannot add child to a file: ...` (in `add_child`) -/
  | addToFile
  /-- `Child with name '...' already exists.` (in `add_child`) -/
  | childExists
  /-- `Child '...' not found.` (in `remove_child`) and `Path not found.`
  (in `delete`, `set_permissions`, `get_permissions`) -/
  | notFound
  /-- `Cannot create path inside a file: ...` (in `create`) -/
  | insideFile
  /-- `Path conflict: '...' already exists as a different type.` (in `create`) -/
  | typeConflict
  /-- `Path is not a directory.` (in `list_directory`) -/
  | notDirectory
deriving DecidableEq

/-- the `FileSystemNode` dataclass: `name`, `is_file`, `children` (a dict
from child name to child node), `permissions` (a dict from user to
permission string). -/
inductive FileSystemNode where
  | mk : String → Bool → List (String × FileSystemNode) →
      List (String × String) → FileSystemNode

/-- field `name`. -/
def FileSystemNode.name : FileSystemNode → String
  | .mk n _ _ _ => n

/-- field `is_file`. -/
def FileSystemNode.is_file : FileSystemNode → Bool
  | .mk _ f _ _ => f

/-- field `children`. -/
def FileSystemNode.children : FileSystemNode → List (String × FileSystemNode)
  | .mk _ _ cs _ => cs

/-- field `permissions`. -/
def FileSystemNode.permissions : FileSystemNode → List (String × String)
  | .mk _ _ _ ps => ps

/-- replace the `children` field (in-place mutation of the dict). -/
def FileSystemNode.withChildren : FileSystemNode →
    List (String × FileSystemNode) → FileSystemNode
  | .mk n f _ ps, cs => .mk n f cs ps

/-- replace the `permissions` field (in-place mutation of the dict). -/
def FileSystemNode.withPermissions : FileSystemNode →
    List (String × String) → FileSystemNode
  | .mk n f cs _, ps => .mk n f cs ps

/-- `FileSystemNode.get_child`: `self.children.get(child_name)`. -/
def FileSystemNode.get_child (n : FileSystemNode) (s : String) :
    Option FileSystemNode :=
  lookupA n.children s

/-- `FileSystemNode.add_child`: error on a file or a duplicate name,
otherwise `self.children[child.name] = child`. -/
def FileSystemNode.add_child (n child : FileSystemNode) :
    Except Err FileSystemNode :=
  if n.is_file then .error .addToFile
  else if (lookupA n.children child.name).isSome then .error .childExists
  else .ok (n.withChildren (setA n.children child.name child))

/-- `FileSystemNode.remove_child`: `if not self.children or child_name not in
self.children: raise`, else `del self.children[child_name]`. -/
def FileSystemNode.remove_child (n : FileSystemNode) (s : String) :
    Except Err FileSystemNode :=
  if n.children.isEmpty || (lookupA n.children s).isNone then .error .notFound
  else .ok (n.withChildren (eraseA n.children s))

/-- `FileSystemNode.set_permissions`: `self.permissions[user] = permissions`. -/
def FileSystemNode.set_permissions (n : FileSystemNode) (user perm : String) :
    FileSystemNode :=
  n.withPermissions (setA n.permissions user perm)

/-- `FileSystemNode.get_permissions`: `self.permissions.get(user)`. -/
def FileSystemNode.get_permissions (n : FileSystemNode) (user : String) :
    Option String :=
  lookupA n.permissions user

/-- the root node made by `FileSystem.__init__`:
`FileSystemNode("/", is_file=False)`. -/
def FileSystem.init : FileSystemNode :=
  .mk "/" false [] []

/-- `FileSystem._traverse`: walk the segment list from `node`; at each
segment, if the current node is absent or a file return `None`, otherwise
descend via `get_child`.  (A failed lookup makes `current = None`, which is
reported `None` either by the next iteration's guard or by falling out of
the loop.) -/
def FileSystem.traverse : FileSystemNode → List String → Option FileSystemNode
  | n, [] => some n
  | n, p :: ps =>
      if n.is_file then none
      else match lookupA n.children p with
        | none => none
        | some c => FileSystem.traverse c ps

/-- the loop of `FileSystem.create` over the segment list, together with the
final `current.is_file != is_file` check.  The Python loop mutates the tree
as it walks: `current.add_child(new_node)` attaches a fresh node *before*
descending into it, so the returned tree reflects every insertion performed
before a `raise`.  This is modelled by returning the rebuilt tree alongside
`Option Err`.  When a fresh node is attached, `add_child`'s two guards hold
by construction (`current` passed the `is_file` guard and `get_child`
returned `None`), so the insertion is the plain dict assignment `setA`. -/
def FileSystem.createParts : FileSystemNode → List String → Bool →
    FileSystemNode × Option Err
  | n, [], req => (n, if n.is_file ≠ req then some .typeConflict else none)
  | n, p :: ps, req =>
      if n.is_file then (n, some .insideFile)
      else match lookupA n.children p with
        | some c =>
            let r := FileSystem.createParts c ps req
            (n.withChildren (setA n.children p r.1), r.2)
        | none =>
            let newNode : FileSystemNode :=
              .mk p (if ps = [] then req else false) [] []
            let r := FileSystem.createParts newNode ps req
            (n.withChildren (setA n.children p r.1), r.2)

/-- `FileSystem.create(path, is_file)`. -/
def FileSystem.create (t : FileSystemNode) (path : String) (req : Bool) :
    FileSystemNode × Option Err :=
  FileSystem.createParts t (pathParts path) req

/-- `FileSystem.delete` on the segment list: `_traverse(parts[:-1])` followed
by `parent.remove_child(parts[-1])`, fused into one recursion that rebuilds
the tree along the parent path.  Consuming a segment with more segments to
come performs `_traverse`'s guard/lookup for that segment (`None` becomes
`Path not found.`); the last segment is removed from the parent node exactly
as `remove_child` does (the parent itself is *not* checked to be a
directory, just as `_traverse` does not examine the final node). -/
def FileSystem.deleteParts : FileSystemNode → List String →
    Except Err FileSystemNode
  | _, [] => .error .notFound
  | n, [last] => n.remove_child last
  | n, p :: q :: qs =>
      if n.is_file then .error .notFound
      else match lookupA n.children p with
        | none => .error .notFound
        | some c => (FileSystem.deleteParts c (q :: qs)).map (fun c' =>
            n.withChildren (setA n.children p c'))

/-- `FileSystem.delete(path)`.  (`pathParts` never returns `[]`, so the
`[]` case of `deleteParts` is unreachable from here.) -/
def FileSystem.delete (t : FileSystemNode) (path : String) :
    Except Err FileSystemNode :=
  FileSystem.deleteParts t (pathParts path)

/-- the body of `FileSystem.list_directory` on an already-split segment list:
resolve the node; raise `Path is not a directory.` if it does not resolve or
is a file; otherwise return `list(node.children.keys())`. -/
def FileSystem.listDirParts (t : FileSystemNode) (parts : List String) :
    Except Err (List String) :=
  match FileSystem.traverse t parts with
  | none => .error .notDirectory
  | some n =>
      if n.is_file then .error .notDirectory
      else .ok (n.children.map Prod.fst)

/-- `FileSystem.list_directory(path)` (the Python default argument is `"/"`). -/
def FileSystem.list_directory (t : FileSystemNode) (path : String) :
    Except Err (List String) :=
  FileSystem.listDirParts t (pathParts path)

/-- the recursion of `FileSystem.search` over a children dict: for each child
in insertion order, emit the child's own match (its accumulated path is
`f"{path}/{child_name}".strip("//")`, and `path or "/"` turns an empty
accumulated path into `"/"`), then the matches in its subtree (directories
only), then the matches of the remaining siblings. -/
def FileSystem.searchChildren (q : String) :
    List (String × FileSystemNode) → String → List String
  | [], _ => []
  | (cn, .mk nm f cs _) :: rest, path =>
      let childPath := pyStripSlash (path ++ "/" ++ cn)
      (if nm = q then [if childPath = "" then "/" else childPath] else []) ++
      (if f then [] else FileSystem.searchChildren q cs childPath) ++
      FileSystem.searchChildren q rest path

/-- `FileSystem.search(name)` started at the root with `path=""`: the root's
own match (reported as `"/"` since `path or "/"` applies) followed by the
depth-first matches of the whole tree. -/
def FileSystem.search (t : FileSystemNode) (q : String) : List String :=
  (if t.name = q then ["/"] else []) ++
  (if t.is_file then [] else FileSystem.searchChildren q t.children "")

/-- `FileSystem.set_permissions(path, user, permissions)`: `_traverse` to the
node (raising `Path not found.` on `None`) and set its permission entry,
rebuilding the tree along the path to model the in-place mutation. -/
def FileSystem.setPermsParts : FileSystemNode → List String → String →
    String → Except Err FileSystemNode
  | n, [], user, perm => .ok (n.set_permissions user perm)
  | n, p :: ps, user, perm =>
      if n.is_file then .error .notFound
      else match lookupA n.children p with
        | none => .error .notFound
        | some c => (FileSystem.setPermsParts c ps user perm).map (fun c' =>
            n.withChildren (setA n.children p c'))

/-- `FileSystem.set_permissions` on a string path. -/
def FileSystem.set_permissions (t : FileSystemNode) (path user perm : String) :
    Except Err FileSystemNode :=
  FileSystem.setPermsParts t (pathParts path) user perm

/-- `FileSystem.get_permissions(path, user)`: `_traverse`, raise
`Path not found.` on `None`, else `node.get_permissions(user)`. -/
def FileSystem.get_permissions (t : FileSystemNode) (path user : String) :
    Except Err (Option String) :=
  match FileSystem.traverse t (pathParts path) with
  | none => .error .notFound
  | some n => .ok (n.get_permissions user)

/-! ### Association-list lemmas (the Python dict operations) -/

theorem lookupA_mem {α : Type} {l : List (String × α)} {k : String} {v : α}
    (h : lookupA l k = some v) : (k, v) ∈ l := by
  induction l with
  | nil => simp [lookupA] at h
  | cons hd tl ih =>
      obtain ⟨k', v'⟩ := hd
      by_cases hk : k' = k
      · subst hk
        simp [lookupA] at h
        subst h
        exact List.mem_cons_self _ _
      · simp only [lookupA, if_neg hk] at h
        exact List.mem_cons_of_mem _ (ih h)

theorem lookupA_setA_self {α : Type} (l : List (String × α)) (k : String) (v : α) :
    lookupA (setA l k v) k = some v := by
  induction l with
  | nil => simp [setA, lookupA]
  | cons hd tl ih =>
      obtain ⟨k', v'⟩ := hd
      by_cases hk : k' = k
      · subst hk; simp [setA, lookupA]
      · simp [setA, lookupA, hk, ih]

theorem lookupA_setA_ne {α : Type} (l : List (String × α)) {k k' : String} (v : α)
    (h : k' ≠ k) : lookupA (setA l k v) k' = lookupA l k' := by
  have hsym : ¬ k = k' := fun hh => h hh.symm
  induction l with
  | nil => simp [setA, lookupA, hsym]
  | cons hd tl ih =>
      obtain ⟨k₀, v₀⟩ := hd
      by_cases hk : k₀ = k
      · subst hk
        simp [setA, lookupA, hsym]
      · by_cases hk' : k₀ = k'
        · subst hk'
          simp [setA, lookupA, hk]
        · simp [setA, lookupA, hk, hk', ih]

theorem setA_id_of_lookupA {α : Type} {l : List (String × α)} {k : String} {v : α}
    (h : lookupA l k = some v) : setA l k v = l := by
  induction l with
  | nil => simp [lookupA] at h
  | cons hd tl ih =>
      obtain ⟨k', v'⟩ := hd
      by_cases hk : k' = k
      · subst hk
        simp [lookupA] at h
        simp [setA, h]
      · simp only [lookupA, if_neg hk] at h
        simp [setA, hk, ih h]

theorem keys_setA_found {α : Type} {l : List (String × α)} {k : String} {w : α}
    (h : lookupA l k = some w) (v : α) :
    (setA l k v).map Prod.fst = l.map Prod.fst := by
  induction l with
  | nil => simp [lookupA] at h
  | cons hd tl ih =>
      obtain ⟨k', v'⟩ := hd
      by_cases hk : k' = k
      · subst hk; simp [setA]
      · simp only [lookupA, if_neg hk] at h
        simp [setA, hk, ih h]

theorem mem_setA {α : Type} {l : List (String × α)} {k : String} {v : α}
    {x : String × α} (h : x ∈ setA l k v) : x ∈ l ∨ x = (k, v) := by
  induction l with
  | nil =>
      simp [setA] at h
      exact Or.inr h
  | cons hd tl ih =>
      obtain ⟨k', v'⟩ := hd
      by_cases hk : k' = k
      · subst hk
        simp only [setA, if_pos rfl] at h
        rcases List.mem_cons.mp h with h | h
        · exact Or.inr (by simp [h])
        · exact Or.inl (List.mem_cons_of_mem _ h)
      · simp only [setA, if_neg hk] at h
        rcases List.mem_cons.mp h with h | h
        · exact Or.inl (by simp [h])
        · rcases ih h with h' | h'
          · exact Or.inl (List.mem_cons_of_mem _ h')
          · exact Or.inr h'

theorem lookupA_eq_none_iff {α : Type} (l : List (String × α)) (k : String) :
    lookupA l k = none ↔ k ∉ l.map Prod.fst := by
  induction l with
  | nil => simp [lookupA]
  | cons hd tl ih =>
      obtain ⟨k', v'⟩ := hd
      by_cases hk : k' = k
      · subst hk; simp [lookupA]
      · have hsym : ¬ k = k' := fun hh => hk hh.symm
        simp [lookupA, hk, ih, hsym]

theorem mem_eraseA {α : Type} {l : List (String × α)} {k : String}
    {x : String × α} (h : x ∈ eraseA l k) : x ∈ l := by
  induction l with
  | nil => simp [eraseA] at h
  | cons hd tl ih =>
      obtain ⟨k', v'⟩ := hd
      by_cases hk : k' = k
      · subst hk
        simp only [eraseA, if_pos rfl] at h
        exact List.mem_cons_of_mem _ h
      · simp only [eraseA, if_neg hk] at h
        rcases List.mem_cons.mp h with h | h
        · exact List.mem_cons.mpr (Or.inl h)
        · exact List.mem_cons_of_mem _ (ih h)

theorem not_mem_keys_eraseA {α : Type} {l : List (String × α)} {k : String}
    (h : (l.map Prod.fst).Nodup) : k ∉ (eraseA l k).map Prod.fst := by
  induction l with
  | nil => simp [eraseA]
  | cons hd tl ih =>
      obtain ⟨k', v'⟩ := hd
      simp only [List.map_cons, List.nodup_cons] at h
      by_cases hk : k' = k
      · subst hk
        simpa [eraseA] using h.1
      · intro hmem
        simp only [eraseA, if_neg hk, List.map_cons, List.mem_cons] at hmem
        rcases hmem with hmem | hmem
        · exact hk hmem.symm
        · exact ih h.2 hmem

theorem lookupA_eraseA_self {α : Type} {l : List (String × α)} {k : String}
    (h : (l.map Prod.fst).Nodup) : lookupA (eraseA l k) k = none :=
  (lookupA_eq_none_iff _ _).mpr (not_mem_keys_eraseA h)

/-! ### Node projection lemmas -/

@[simp] theorem name_withChildren (n : FileSystemNode)
    (cs : List (String × FileSystemNode)) :
    (n.withChildren cs).name = n.name := by
  cases n; rfl

@[simp] theorem is_file_withChildren (n : FileSystemNode)
    (cs : List (String × FileSystemNode)) :
    (n.withChildren cs).is_file = n.is_file := by
  cases n; rfl

@[simp] theorem children_withChildren (n : FileSystemNode)
    (cs : List (String × FileSystemNode)) :
    (n.withChildren cs).children = cs := by
  cases n; rfl

@[simp] theorem permissions_withChildren (n : FileSystemNode)
    (cs : List (String × FileSystemNode)) :
    (n.withChildren cs).permissions = n.permissions := by
  cases n; rfl

@[simp] theorem name_withPermissions (n : FileSystemNode)
    (ps : List (String × String)) :
    (n.withPermissions ps).name = n.name := by
  cases n; rfl

@[simp] theorem is_file_withPermissions (n : FileSystemNode)
    (ps : List (String × String)) :
    (n.withPermissions ps).is_file = n.is_file := by
  cases n; rfl

@[simp] theorem children_withPermissions (n : FileSystemNode)
    (ps : List (String × String)) :
    (n.withPermissions ps).children = n.children := by
  cases n; rfl

@[simp] theorem permissions_withPermissions (n : FileSystemNode)
    (ps : List (String × String)) :
    (n.withPermissions ps).permissions = ps := by
  cases n; rfl

@[simp] theorem withChildren_children_self (n : FileSystemNode) :
    n.withChildren n.children = n := by
  cases n; rfl

/-! ### Invariants of the tree -/

/-- the spec's structural invariant: a node with `is_file = true` never has
entries in `children`, at every node of the tree. -/
inductive FilesChildless : FileSystemNode → Prop
  | intro (n : FileSystemNode)
      (hfile : n.is_file = true → n.children = [])
      (hrec : ∀ s c, (s, c) ∈ n.children → FilesChildless c) :
      FilesChildless n

/-- the spec's uniqueness invariant: within one parent's `children`, all keys
are unique, at every node of the tree. -/
inductive NodupChildKeys : FileSystemNode → Prop
  | intro (n : FileSystemNode)
      (hkeys : (n.children.map Prod.fst).Nodup)
      (hrec : ∀ s c, (s, c) ∈ n.children → NodupChildKeys c) :
      NodupChildKeys n

theorem FilesChildless.children_eq_nil {n : FileSystemNode}
    (h : FilesChildless n) (hf : n.is_file = true) : n.children = [] := by
  cases h with
  | intro n hfile hrec => exact hfile hf

theorem FilesChildless.fcChild {n c : FileSystemNode} {s : String}
    (h : FilesChildless n) (hc : (s, c) ∈ n.children) : FilesChildless c := by
  cases h with
  | intro n hfile hrec => exact hrec s c hc

theorem NodupChildKeys.keys {n : FileSystemNode} (h : NodupChildKeys n) :
    (n.children.map Prod.fst).Nodup := by
  cases h with
  | intro n hkeys hrec => exact hkeys

theorem NodupChildKeys.nkChild {n c : FileSystemNode} {s : String}
    (h : NodupChildKeys n) (hc : (s, c) ∈ n.children) : NodupChildKeys c := by
  cases h with
  | intro n hkeys hrec => exact hrec s c hc

/-! ### Lemmas about `create` -/

/-- a chain of nodes freshly created by the `create` loop never raises:
every node on it is a new empty directory (or the final node, which carries
the requested flag), so neither guard can fire. -/
theorem createParts_fresh_no_error (ps : List String) (req : Bool) (nm : String) :
    (FileSystem.createParts (.mk nm (if ps = [] then req else false) [] []) ps req).2 =
      none := by
  induction ps generalizing nm with
  | nil => simp [FileSystem.createParts, FileSystemNode.is_file]
  | cons p ps ih =>
      have hcond : (if p :: ps = [] then req else false) = false :=
        if_neg (List.cons_ne_nil p ps)
      rw [hcond]
      simp only [FileSystem.createParts, FileSystemNode.is_file,
        Bool.false_eq_true, if_false, FileSystemNode.children, lookupA]
      exact ih p

/-- atomicity of `create`: whenever the loop raises, the tree is returned
unchanged, because each failing guard fires at a pre-existing node before
anything was inserted. -/
theorem createParts_error_unchanged (p : List String) :
    ∀ (t : FileSystemNode) (req : Bool) (e : Err),
      (FileSystem.createParts t p req).2 = some e →
      (FileSystem.createParts t p req).1 = t := by
  induction p with
  | nil => intro t req e _; simp [FileSystem.createParts]
  | cons p ps ih =>
      intro t req e herr
      cases ht : t.is_file with
      | true => simp [FileSystem.createParts, ht]
      | false =>
          cases hl : lookupA t.children p with
          | none =>
              exfalso
              simp only [FileSystem.createParts, ht, Bool.false_eq_true,
                if_false, hl] at herr
              rw [createParts_fresh_no_error ps req p] at herr
              exact Option.noConfusion herr
          | some c =>
              simp only [FileSystem.createParts, ht, Bool.false_eq_true,
                if_false, hl] at herr ⊢
              rw [ih c req e herr, setA_id_of_lookupA hl,
                withChildren_children_self]

/-- when the whole path already resolves, `create` walks it without inserting
anything and only performs the final type check. -/
theorem createParts_of_traverse (p : List String) :
    ∀ (t n : FileSystemNode) (req : Bool),
      FileSystem.traverse t p = some n →
      FileSystem.createParts t p req =
        (t, if n.is_file = req then none else some .typeConflict) := by
  induction p with
  | nil =>
      intro t n req htr
      simp only [FileSystem.traverse, Option.some.injEq] at htr
      subst htr
      by_cases h : t.is_file = req <;>
        simp [FileSystem.createParts, h]
  | cons p ps ih =>
      intro t n req htr
      cases ht : t.is_file with
      | true => simp [FileSystem.traverse, ht] at htr
      | false =>
          cases hl : lookupA t.children p with
          | none => simp [FileSystem.traverse, ht, hl] at htr
          | some c =>
              simp only [FileSystem.traverse, ht, Bool.false_eq_true,
                if_false, hl] at htr
              simp only [FileSystem.createParts, ht, Bool.false_eq_true,
                if_false, hl]
              rw [ih c n req htr, setA_id_of_lookupA hl,
                withChildren_children_self]

/-- after a successful `create(p, req)`, the path resolves to a node with the
requested flag, and every proper prefix of the path resolves to a
directory. -/
theorem createParts_ok_traverse (p : List String) :
    ∀ (t t' : FileSystemNode) (req : Bool),
      FileSystem.createParts t p req = (t', none) →
      (∃ n, FileSystem.traverse t' p = some n ∧ n.is_file = req) ∧
      ∀ i, i < p.length →
        ∃ d, FileSystem.traverse t' (p.take i) = some d ∧ d.is_file = false := by
  induction p with
  | nil =>
      intro t t' req h
      simp only [FileSystem.createParts, Prod.mk.injEq] at h
      obtain ⟨rfl, hflag⟩ := h
      refine ⟨⟨t, rfl, ?_⟩, by simp⟩
      by_cases hf : t.is_file = req
      · exact hf
      · simp [hf] at hflag
  | cons p ps ih =>
      intro t t' req h
      cases ht : t.is_file with
      | true => simp [FileSystem.createParts, ht, Prod.mk.injEq] at h
      | false =>
          cases hl : lookupA t.children p with
          | some c =>
              simp only [FileSystem.createParts, ht, Bool.false_eq_true,
                if_false, hl, Prod.mk.injEq] at h
              obtain ⟨rfl, herr⟩ := h
              have hrec : FileSystem.createParts c ps req =
                  ((FileSystem.createParts c ps req).1, none) := by
                rw [← herr]
              obtain ⟨⟨n, hn, hnf⟩, hpre⟩ := ih c _ req hrec
              constructor
              · exact ⟨n, by
                  simp [FileSystem.traverse, ht, lookupA_setA_self, hn], hnf⟩
              · intro i hi
                cases i with
                | zero => exact ⟨_, rfl, by simp [ht]⟩
                | succ j =>
                    have hj : j < ps.length := by
                      simpa using hi
                    obtain ⟨d, hd, hdf⟩ := hpre j hj
                    exact ⟨d, by
                      simp [List.take_succ_cons, FileSystem.traverse, ht,
                        lookupA_setA_self, hd], hdf⟩
          | none =>
              simp only [FileSystem.createParts, ht, Bool.false_eq_true,
                if_false, hl, Prod.mk.injEq] at h
              obtain ⟨rfl, herr⟩ := h
              set nn : FileSystemNode :=
                .mk p (if ps = [] then req else false) [] [] with hnn
              have hrec : FileSystem.createParts nn ps req =
                  ((FileSystem.createParts nn ps req).1, none) := by
                rw [← herr]
              obtain ⟨⟨n, hn, hnf⟩, hpre⟩ := ih nn _ req hrec
              constructor
              · exact ⟨n, by
                  simp [FileSystem.traverse, ht, lookupA_setA_self, hn], hnf⟩
              · intro i hi
                cases i with
                | zero => exact ⟨_, rfl, by simp [ht]⟩
                | succ j =>
                    have hj : j < ps.length := by
                      simpa using hi
                    obtain ⟨d, hd, hdf⟩ := hpre j hj
                    exact ⟨d, by
                      simp [List.take_succ_cons, FileSystem.traverse, ht,
                        lookupA_setA_self, hd], hdf⟩

/-! ### Concrete trees used as witnesses -/

/-- a tree with a directory at `a/b`. -/
def abDirTree : FileSystemNode := (FileSystem.create FileSystem.init "a/b" false).1

/-- a tree with a file at `a/b`. -/
def abFileTree : FileSystemNode := (FileSystem.create FileSystem.init "a/b" true).1

/-! ### Claims C4, C5, C6, C7 -/

/-- C4: after `create(p, is_file=X)` succeeds, traversing `p` resolves to a
node whose `is_file` flag equals `X`, and every proper prefix of the path
resolves to a directory (intermediate segments are always directories). -/
theorem create_sets_requested_flag (t : FileSystemNode) (path : String)
    (req : Bool) (t' : FileSystemNode)
    (h : FileSystem.create t path req = (t', none)) :
    (∃ n, FileSystem.traverse t' (pathParts path) = some n ∧
      n.is_file = req) ∧
    ∀ i, i < (pathParts path).length →
      ∃ d, FileSystem.traverse t' ((pathParts path).take i) = some d ∧
        d.is_file = false :=
  createParts_ok_traverse (pathParts path) t t' req h

/-- witness for C4 at `create("a/b", is_file=true)` from the fresh root. -/
theorem create_sets_requested_flag_witness :
    (∃ n, FileSystem.traverse abFileTree (pathParts "a/b") = some n ∧
      n.is_file = true) ∧
    ∀ i, i < (pathParts "a/b").length →
      ∃ d, FileSystem.traverse abFileTree ((pathParts "a/b").take i) = some d ∧
        d.is_file = false :=
  create_sets_requested_flag FileSystem.init "a/b" true abFileTree (by rfl)

/-- C5: `create` is idempotent on directory paths: after a successful
`create(p)` (directory mode, the default), running it again succeeds and
returns exactly the same tree. -/
theorem create_idempotent_on_directories (t : FileSystemNode) (path : String)
    (t' : FileSystemNode) (h : FileSystem.create t path false = (t', none)) :
    FileSystem.create t' path false = (t', none) := by
  obtain ⟨⟨n, hn, hnf⟩, -⟩ := createParts_ok_traverse _ _ _ _ h
  show FileSystem.createParts t' (pathParts path) false = (t', none)
  rw [createParts_of_traverse (pathParts path) t' n false hn, hnf]
  simp

/-- witness for C5 at `create("a/b")` from the fresh root. -/
theorem create_idempotent_on_directories_witness :
    FileSystem.create abDirTree "a/b" false = (abDirTree, none) :=
  create_idempotent_on_directories FileSystem.init "a/b" abDirTree (by rfl)

/-- C6: re-creating an existing file with `is_file=true` is a successful
no-op, re-creating it with `is_file=false` fails with the type-conflict
error, and symmetrically requesting a file where a directory exists fails
with the type-conflict error. -/
theorem create_type_conflict_on_mismatch (t : FileSystemNode) (path : String)
    (t' : FileSystemNode) :
    (FileSystem.create t path true = (t', none) →
      FileSystem.create t' path true = (t', none) ∧
      FileSystem.create t' path false = (t', some .typeConflict)) ∧
    (∀ d, FileSystem.traverse t (pathParts path) = some d →
      d.is_file = false →
      FileSystem.create t path true = (t, some .typeConflict)) := by
  constructor
  · intro h
    obtain ⟨⟨n, hn, hnf⟩, -⟩ := createParts_ok_traverse _ _ _ _ h
    constructor
    · show FileSystem.createParts t' (pathParts path) true = (t', none)
      rw [createParts_of_traverse (pathParts path) t' n true hn, hnf]
      simp
    · show FileSystem.createParts t' (pathParts path) false =
        (t', some .typeConflict)
      rw [createParts_of_traverse (pathParts path) t' n false hn, hnf]
      simp
  · intro d hd hdf
    show FileSystem.createParts t (pathParts path) true =
      (t, some .typeConflict)
    rw [createParts_of_traverse (pathParts path) t d true hd, hdf]
    simp

/-- witness for C6: a file at `a/b` (no-op re-creation, conflict as a
directory) and a directory at `a/b` (conflict as a file). -/
theorem create_type_conflict_on_mismatch_witness :
    (FileSystem.create abFileTree "a/b" true = (abFileTree, none) ∧
     FileSystem.create abFileTree "a/b" false =
       (abFileTree, some .typeConflict)) ∧
    FileSystem.create abDirTree "a/b" true = (abDirTree, some .typeConflict) :=
  ⟨(create_type_conflict_on_mismatch FileSystem.init "a/b" abFileTree).1
      (by rfl),
   (create_type_conflict_on_mismatch abDirTree "a/b" abDirTree).2
      (.mk "b" false [] []) (by rfl) (by rfl)⟩

/-- C7 (amended): `create` is atomic on failure — whenever it raises, the
tree is returned unchanged, because every failing guard fires at a
pre-existing node before any insertion has happened. -/
theorem create_unchanged_on_failure (t : FileSystemNode) (path : String)
    (req : Bool) (e : Err)
    (h : (FileSystem.create t path req).2 = some e) :
    (FileSystem.create t path req).1 = t :=
  createParts_error_unchanged (pathParts path) t req e h

/-- witness for C7 (amended): a type conflict at `a/b` leaves the tree as it
was. -/
theorem create_unchanged_on_failure_witness :
    (FileSystem.create abFileTree "a/b" false).1 = abFileTree :=
  create_unchanged_on_failure abFileTree "a/b" false .typeConflict (by rfl)

/-- C7 counterexample: there is no failing `create` that modifies the tree:
the claim that a failing `create` can leave behind intermediate directories
it created (a partially modified tree) is false of the code. -/
theorem create_no_partial_state :
    ¬ ∃ (t : FileSystemNode) (path : String) (req : Bool)
        (t' : FileSystemNode) (e : Err),
        FileSystem.create t path req = (t', some e) ∧ t' ≠ t := by
  rintro ⟨t, path, req, t', e, heq, hne⟩
  have h2 : (FileSystem.create t path req).2 = some e := by rw [heq]
  have h1 : (FileSystem.create t path req).1 = t :=
    createParts_error_unchanged (pathParts path) t req e h2
  rw [heq] at h1
  exact hne h1

/-! ### The scenario tree of spec section 8 -/

/-- the tree built by `create("dir/subdir")`;
`create("dir/subdir/file1.txt", is_file=True)`;
`create("dir/file3.txt", is_file=True)` from a fresh `FileSystem`. -/
def scenarioTree : FileSystemNode :=
  let t1 := (FileSystem.create FileSystem.init "dir/subdir" false).1
  let t2 := (FileSystem.create t1 "dir/subdir/file1.txt" true).1
  (FileSystem.create t2 "dir/file3.txt" true).1

/-- the scenario tree, written out. -/
theorem scenarioTree_eq :
    scenarioTree = .mk "/" false
      [("dir", .mk "dir" false
        [("subdir", .mk "subdir" false
          [("file1.txt", .mk "file1.txt" true [] [])] []),
         ("file3.txt", .mk "file3.txt" true [] [])] [])] [] := by
  rfl

/-! ### Claims C1, C2, C3 -/

/-- C1 counterexample: in the section 8 scenario, `search("file1.txt")`
returns `["dir/subdir/file1.txt"]` — without the leading slash — and not
`["/dir/subdir/file1.txt"]` as claimed. -/
theorem search_result_has_no_leading_slash :
    FileSystem.search scenarioTree "file1.txt" = ["dir/subdir/file1.txt"] ∧
    FileSystem.search scenarioTree "file1.txt" ≠ ["/dir/subdir/file1.txt"] := by
  rw [scenarioTree_eq]
  constructor <;>
    · simp only [FileSystem.search, FileSystemNode.name,
        FileSystemNode.is_file, FileSystemNode.children,
        FileSystem.searchChildren]
      decide


/-- C2: `list_directory("")` and `list_directory("/")` (the default) do not
resolve to the root: both split into the single segment `[""]`, `_traverse`
looks up a child named `""` (normally absent), and the call raises
`Path is not a directory.` instead of returning the root's child names. -/
theorem list_directory_root_path_raises :
    FileSystem.list_directory FileSystem.init "/" = .error .notDirectory ∧
    FileSystem.list_directory FileSystem.init "" = .error .notDirectory ∧
    FileSystem.list_directory scenarioTree "/" = .error .notDirectory :=
  ⟨rfl, rfl, rfl⟩

/-- C3: `create("")` and `create("/")` do not treat the path as the root:
the single empty segment is looked up as a child name, is absent, and a
child named `""` carrying the requested flag is inserted into the root. -/
theorem create_empty_path_inserts_empty_named_child :
    (FileSystem.create FileSystem.init "" false =
      (.mk "/" false [("", .mk "" false [] [])] [], none)) ∧
    (FileSystem.create FileSystem.init "/" true =
      (.mk "/" false [("", .mk "" true [] [])] [], none)) :=
  ⟨rfl, rfl⟩

/-! ### Lemmas about `delete` -/

/-- unfolding of `deleteParts` on a path of two or more segments. -/
theorem deleteParts_cons_ne_nil (n : FileSystemNode) (p q : String)
    (qs : List String) :
    FileSystem.deleteParts n (p :: q :: qs) =
      if n.is_file then .error .notFound
      else match lookupA n.children p with
        | none => .error .notFound
        | some c => (FileSystem.deleteParts c (q :: qs)).map (fun c' =>
            n.withChildren (setA n.children p c')) := by
  rfl

/-- `delete` fails with `Path not found.` when the parent path does not
resolve. -/
theorem deleteParts_parent_unresolved (ps : List String) :
    ∀ (t : FileSystemNode) (last : String),
      FileSystem.traverse t ps = none →
      FileSystem.deleteParts t (ps ++ [last]) = .error .notFound := by
  induction ps with
  | nil => intro t last h; simp [FileSystem.traverse] at h
  | cons p ps ih =>
      intro t last h
      rw [List.cons_append]
      cases hps : ps ++ [last] with
      | nil => exact absurd hps (by simp)
      | cons q qs =>
          rw [deleteParts_cons_ne_nil]
          cases ht : t.is_file with
          | true => simp [ht]
          | false =>
              cases hl : lookupA t.children p with
              | none => simp [ht, hl]
              | some c =>
                  have h' : FileSystem.traverse c ps = none := by
                    simpa [FileSystem.traverse, ht, hl] using h
                  have := ih c last h'
                  rw [hps] at this
                  simp [ht, hl, this, Except.map]

/-- a successful `delete` removes the final segment from its parent: the
parent then lists without the basename, the deleted path no longer resolves,
and deleting again fails with `Path not found.` / `Child not found.`. -/
theorem deleteParts_removes (ps : List String) :
    ∀ (t node : FileSystemNode) (last : String),
      NodupChildKeys t →
      FileSystem.traverse t (ps ++ [last]) = some node →
      ∃ t', FileSystem.deleteParts t (ps ++ [last]) = .ok t' ∧
        (∃ names, FileSystem.listDirParts t' ps = .ok names ∧ last ∉ names) ∧
        FileSystem.traverse t' (ps ++ [last]) = none ∧
        FileSystem.deleteParts t' (ps ++ [last]) = .error .notFound := by
  induction ps with
  | nil =>
      intro t node last hnk htr
      simp only [List.nil_append] at htr ⊢
      cases ht : t.is_file with
      | true => simp [FileSystem.traverse, ht] at htr
      | false =>
          cases hl : lookupA t.children last with
          | none => simp [FileSystem.traverse, ht, hl] at htr
          | some c =>
              have hne : t.children.isEmpty = false := by
                cases hcs : t.children with
                | nil => rw [hcs] at hl; simp [lookupA] at hl
                | cons a l => simp
              refine ⟨t.withChildren (eraseA t.children last), ?_, ?_, ?_, ?_⟩
              · show t.remove_child last = _
                simp [FileSystemNode.remove_child, hne, hl]
              · refine ⟨(eraseA t.children last).map Prod.fst, ?_, ?_⟩
                · simp [FileSystem.listDirParts, FileSystem.traverse, ht]
                · exact not_mem_keys_eraseA hnk.keys
              · simp [FileSystem.traverse, ht, lookupA_eraseA_self hnk.keys]
              · show FileSystemNode.remove_child _ last = _
                simp [FileSystemNode.remove_child,
                  lookupA_eraseA_self hnk.keys]
  | cons p ps ih =>
      intro t node last hnk htr
      rw [List.cons_append] at htr ⊢
      cases ht : t.is_file with
      | true => simp [FileSystem.traverse, ht] at htr
      | false =>
          cases hl : lookupA t.children p with
          | none => simp [FileSystem.traverse, ht, hl] at htr
          | some c =>
              have htr' : FileSystem.traverse c (ps ++ [last]) = some node := by
                simpa [FileSystem.traverse, ht, hl] using htr
              obtain ⟨c', hdel, ⟨names, hld, hmem⟩, htrn, hdel2⟩ :=
                ih c node last (hnk.nkChild (lookupA_mem hl)) htr'
              refine ⟨t.withChildren (setA t.children p c'), ?_,
                ⟨names, ?_, hmem⟩, ?_, ?_⟩
              · cases hps : ps ++ [last] with
                | nil => exact absurd hps (by simp)
                | cons q qs =>
                    rw [deleteParts_cons_ne_nil]
                    rw [hps] at hdel
                    simp [ht, hl, hdel, Except.map]
              · have heq : FileSystem.listDirParts
                    (t.withChildren (setA t.children p c')) (p :: ps) =
                    FileSystem.listDirParts c' ps := by
                  unfold FileSystem.listDirParts
                  rw [show FileSystem.traverse
                      (t.withChildren (setA t.children p c')) (p :: ps) =
                      FileSystem.traverse c' ps from by
                    simp [FileSystem.traverse, ht, lookupA_setA_self]]
                rw [heq]
                exact hld
              · simp [FileSystem.traverse, ht, lookupA_setA_self, htrn]
              · cases hps : ps ++ [last] with
                | nil => exact absurd hps (by simp)
                | cons q qs =>
                    rw [deleteParts_cons_ne_nil]
                    rw [hps] at hdel2
                    simp [ht, lookupA_setA_self, hdel2, Except.map]

/-- C8: for an existing path whose parent resolves, `delete` removes the
final segment from its parent (the parent then lists without the basename
and the subtree no longer resolves), re-deleting fails with `NotFound`, and
`delete` fails with `NotFound` when the parent path does not resolve. -/
theorem delete_removes_basename (t : FileSystemNode) (path : String)
    (ps : List String) (last : String) (node : FileSystemNode)
    (hparts : pathParts path = ps ++ [last])
    (hnk : NodupChildKeys t) :
    (FileSystem.traverse t (ps ++ [last]) = some node →
      ∃ t', FileSystem.delete t path = .ok t' ∧
        (∃ names, FileSystem.listDirParts t' ps = .ok names ∧
          last ∉ names) ∧
        FileSystem.traverse t' (ps ++ [last]) = none ∧
        FileSystem.delete t' path = .error .notFound) ∧
    (FileSystem.traverse t ps = none →
      FileSystem.delete t path = .error .notFound) := by
  constructor
  · intro htr
    obtain ⟨t', h1, h2, h3, h4⟩ := deleteParts_removes ps t node last hnk htr
    refine ⟨t', ?_, h2, h3, ?_⟩
    · show FileSystem.deleteParts t (pathParts path) = .ok t'
      rw [hparts]; exact h1
    · show FileSystem.deleteParts t' (pathParts path) = .error .notFound
      rw [hparts]; exact h4
  · intro h
    show FileSystem.deleteParts t (pathParts path) = .error .notFound
    rw [hparts]
    exact deleteParts_parent_unresolved ps t last h

/-- the scenario tree has unique child names throughout. -/
theorem nodupChildKeys_scenarioTree : NodupChildKeys scenarioTree := by
  rw [scenarioTree_eq]
  refine .intro _ (by decide) fun s c hc => ?_
  simp only [FileSystemNode.children, List.mem_singleton, Prod.mk.injEq] at hc
  obtain ⟨rfl, rfl⟩ := hc
  refine .intro _ (by decide) fun s c hc => ?_
  simp only [FileSystemNode.children, List.mem_cons, List.not_mem_nil,
    or_false, Prod.mk.injEq] at hc
  rcases hc with ⟨rfl, rfl⟩ | ⟨rfl, rfl⟩
  · refine .intro _ (by decide) fun s c hc => ?_
    simp only [FileSystemNode.children, List.mem_singleton,
      Prod.mk.injEq] at hc
    obtain ⟨rfl, rfl⟩ := hc
    exact .intro _ (by decide) fun s c hc => absurd hc (by simp [FileSystemNode.children])
  · exact .intro _ (by decide) fun s c hc => absurd hc (by simp [FileSystemNode.children])

/-- witness for C8 on the scenario tree: deleting `dir/file3.txt` and
deleting under the unresolved parent `missing/x`. -/
theorem delete_removes_basename_witness :
    (∃ t', FileSystem.delete scenarioTree "dir/file3.txt" = .ok t' ∧
      (∃ names, FileSystem.listDirParts t' ["dir"] = .ok names ∧
        "file3.txt" ∉ names) ∧
      FileSystem.traverse t' (["dir"] ++ ["file3.txt"]) = none ∧
      FileSystem.delete t' "dir/file3.txt" = .error .notFound) ∧
    FileSystem.delete scenarioTree "missing/x/y" = .error .notFound :=
  ⟨(delete_removes_basename scenarioTree "dir/file3.txt" ["dir"] "file3.txt"
      (.mk "file3.txt" true [] []) (by rfl) nodupChildKeys_scenarioTree).1
      (by rfl),
   (delete_removes_basename scenarioTree "missing/x/y" ["missing", "x"] "y"
      FileSystem.init (by rfl) nodupChildKeys_scenarioTree).2 (by rfl)⟩

/-! ### Preservation of the files-are-childless invariant -/

theorem filesChildless_create (p : List String) :
    ∀ (t : FileSystemNode) (req : Bool), FilesChildless t →
      FilesChildless (FileSystem.createParts t p req).1 := by
  induction p with
  | nil => intro t req h; exact h
  | cons p ps ih =>
      intro t req h
      cases ht : t.is_file with
      | true => simpa [FileSystem.createParts, ht] using h
      | false =>
          cases hl : lookupA t.children p with
          | some c =>
              simp only [FileSystem.createParts, ht, Bool.false_eq_true,
                if_false, hl]
              refine .intro _ (fun hf => ?_) fun s c' hc => ?_
              · rw [is_file_withChildren, ht] at hf; exact absurd hf (by simp)
              · rw [children_withChildren] at hc
                rcases mem_setA hc with hm | hm
                · exact h.fcChild hm
                · cases hm
                  exact ih c req (h.fcChild (lookupA_mem hl))
          | none =>
              simp only [FileSystem.createParts, ht, Bool.false_eq_true,
                if_false, hl]
              refine .intro _ (fun hf => ?_) fun s c' hc => ?_
              · rw [is_file_withChildren, ht] at hf; exact absurd hf (by simp)
              · rw [children_withChildren] at hc
                rcases mem_setA hc with hm | hm
                · exact h.fcChild hm
                · cases hm
                  refine ih _ req (.intro _ (fun _ => rfl) ?_)
                  intro s c hc
                  exact absurd hc (by simp [FileSystemNode.children])

theorem filesChildless_remove_child {n : FileSystemNode} {s : String}
    {n' : FileSystemNode} (h : FilesChildless n)
    (hok : n.remove_child s = .ok n') : FilesChildless n' := by
  unfold FileSystemNode.remove_child at hok
  by_cases hcond : (n.children.isEmpty || (lookupA n.children s).isNone) = true
  · simp [hcond] at hok
  · simp only [hcond, Bool.false_eq_true, if_false, Bool.not_eq_true,
      Except.ok.injEq] at hok
    subst hok
    refine .intro _ (fun hf => ?_) fun s' c' hc => ?_
    · rw [is_file_withChildren] at hf
      have := h.children_eq_nil hf
      rw [this] at hcond
      simp [List.isEmpty] at hcond
    · rw [children_withChildren] at hc
      exact h.fcChild (mem_eraseA hc)

theorem filesChildless_delete (p : List String) :
    ∀ (t t' : FileSystemNode), FilesChildless t →
      FileSystem.deleteParts t p = .ok t' → FilesChildless t' := by
  induction p with
  | nil => intro t t' _ hok; simp [FileSystem.deleteParts] at hok
  | cons p rest ih =>
      intro t t' h hok
      cases rest with
      | nil => exact filesChildless_remove_child h hok
      | cons q qs =>
          rw [deleteParts_cons_ne_nil] at hok
          cases ht : t.is_file with
          | true => rw [ht] at hok; simp at hok
          | false =>
              rw [ht] at hok
              simp only [Bool.false_eq_true, if_false] at hok
              cases hl : lookupA t.children p with
              | none => simp [hl] at hok
              | some c =>
                  simp only [hl] at hok
                  cases hrec : FileSystem.deleteParts c (q :: qs) with
                  | error e => rw [hrec] at hok; simp [Except.map] at hok
                  | ok c' =>
                      rw [hrec] at hok
                      simp only [Except.map, Except.ok.injEq] at hok
                      subst hok
                      refine .intro _ (fun hf => ?_) fun s c₀ hc => ?_
                      · rw [is_file_withChildren, ht] at hf
                        exact absurd hf (by simp)
                      · rw [children_withChildren] at hc
                        rcases mem_setA hc with hm | hm
                        · exact h.fcChild hm
                        · cases hm
                          exact ih c c' (h.fcChild (lookupA_mem hl)) hrec

theorem filesChildless_setPerms (p : List String) :
    ∀ (t : FileSystemNode) (u perm : String) (t' : FileSystemNode),
      FilesChildless t →
      FileSystem.setPermsParts t p u perm = .ok t' → FilesChildless t' := by
  induction p with
  | nil =>
      intro t u perm t' h hok
      simp only [FileSystem.setPermsParts, Except.ok.injEq] at hok
      subst hok
      refine .intro _ (fun hf => ?_) fun s c hc => ?_
      · rw [FileSystemNode.set_permissions, is_file_withPermissions] at hf
        rw [FileSystemNode.set_permissions, children_withPermissions]
        exact h.children_eq_nil hf
      · rw [FileSystemNode.set_permissions, children_withPermissions] at hc
        exact h.fcChild hc
  | cons p ps ih =>
      intro t u perm t' h hok
      cases ht : t.is_file with
      | true => simp [FileSystem.setPermsParts, ht] at hok
      | false =>
          simp only [FileSystem.setPermsParts, ht, Bool.false_eq_true,
            if_false] at hok
          cases hl : lookupA t.children p with
          | none => simp [hl] at hok
          | some c =>
              simp only [hl] at hok
              cases hrec : FileSystem.setPermsParts c ps u perm with
              | error e => rw [hrec] at hok; simp [Except.map] at hok
              | ok c' =>
                  rw [hrec] at hok
                  simp only [Except.map, Except.ok.injEq] at hok
                  subst hok
                  refine .intro _ (fun hf => ?_) fun s c₀ hc => ?_
                  · rw [is_file_withChildren, ht] at hf
                    exact absurd hf (by simp)
                  · rw [children_withChildren] at hc
                    rcases mem_setA hc with hm | hm
                    · exact h.fcChild hm
                    · cases hm
                      exact ih c u perm c' (h.fcChild (lookupA_mem hl)) hrec

/-- C9: the invariant "every node with `is_file = true` has an empty
`children` mapping" is preserved by every operation that returns a tree
(`create` — even on failure —, `delete`, `set_permissions`, `add_child`,
`remove_child`; `list_directory`, `search` and `get_permissions` do not
modify the tree), and adding a child to a file node fails with an error
instead of mutating it. -/
theorem file_nodes_stay_childless :
    (∀ (t : FileSystemNode) (path : String) (req : Bool),
      FilesChildless t → FilesChildless (FileSystem.create t path req).1) ∧
    (∀ (t : FileSystemNode) (path : String) (t' : FileSystemNode),
      FilesChildless t → FileSystem.delete t path = .ok t' →
      FilesChildless t') ∧
    (∀ (t : FileSystemNode) (path user perm : String) (t' : FileSystemNode),
      FilesChildless t →
      FileSystem.set_permissions t path user perm = .ok t' →
      FilesChildless t') ∧
    (∀ (n c : FileSystemNode), n.is_file = true →
      n.add_child c = .error .addToFile) ∧
    (∀ (n c n' : FileSystemNode), FilesChildless n → FilesChildless c →
      n.add_child c = .ok n' → FilesChildless n') ∧
    (∀ (n : FileSystemNode) (s : String) (n' : FileSystemNode),
      FilesChildless n → n.remove_child s = .ok n' → FilesChildless n') := by
  refine ⟨?_, ?_, ?_, ?_, ?_, ?_⟩
  · intro t path req h
    exact filesChildless_create (pathParts path) t req h
  · intro t path t' h hok
    exact filesChildless_delete (pathParts path) t t' h hok
  · intro t path user perm t' h hok
    exact filesChildless_setPerms (pathParts path) t user perm t' h hok
  · intro n c hf
    simp [FileSystemNode.add_child, hf]
  · intro n c n' hn hc hok
    unfold FileSystemNode.add_child at hok
    cases hf : n.is_file with
    | true => rw [hf] at hok; simp at hok
    | false =>
        rw [hf] at hok
        simp only [Bool.false_eq_true, if_false] at hok
        by_cases hl : (lookupA n.children c.name).isSome = true
        · rw [if_pos hl] at hok; simp at hok
        · rw [if_neg hl] at hok
          simp only [Except.ok.injEq] at hok
          subst hok
          refine .intro _ (fun hff => ?_) fun s c₀ hcm => ?_
          · rw [is_file_withChildren, hf] at hff
            exact absurd hff (by simp)
          · rw [children_withChildren] at hcm
            rcases mem_setA hcm with hm | hm
            · exact hn.fcChild hm
            · cases hm
              exact hc
  · intro n s n' h hok
    exact filesChildless_remove_child h hok

/-! ### Frame lemmas for `set_permissions` -/

/-- the permission-independent part of a node: its name, flag and ordered
child names. -/
def nodeSig (n : FileSystemNode) : String × Bool × List String :=
  (n.name, n.is_file, n.children.map Prod.fst)

/-- a successful `set_permissions` resolves the node and replaces exactly it
by the node with the updated permission entry. -/
theorem setPermsParts_resolves (p : List String) :
    ∀ (t : FileSystemNode) (u perm : String) (t' : FileSystemNode),
      FileSystem.setPermsParts t p u perm = .ok t' →
      ∃ n, FileSystem.traverse t p = some n ∧
        FileSystem.traverse t' p = some (n.set_permissions u perm) := by
  induction p with
  | nil =>
      intro t u perm t' hok
      simp only [FileSystem.setPermsParts, Except.ok.injEq] at hok
      subst hok
      exact ⟨t, rfl, rfl⟩
  | cons p ps ih =>
      intro t u perm t' hok
      cases ht : t.is_file with
      | true => simp [FileSystem.setPermsParts, ht] at hok
      | false =>
          simp only [FileSystem.setPermsParts, ht, Bool.false_eq_true,
            if_false] at hok
          cases hl : lookupA t.children p with
          | none => simp [hl] at hok
          | some c =>
              simp only [hl] at hok
              cases hrec : FileSystem.setPermsParts c ps u perm with
              | error e => rw [hrec] at hok; simp [Except.map] at hok
              | ok c' =>
                  rw [hrec] at hok
                  simp only [Except.map, Except.ok.injEq] at hok
                  subst hok
                  obtain ⟨n, hn, hn'⟩ := ih c u perm c' hrec
                  exact ⟨n, by simp [FileSystem.traverse, ht, hl, hn],
                    by simp [FileSystem.traverse, ht, lookupA_setA_self, hn']⟩

/-- `set_permissions` changes no node's name, flag or ordered child names,
anywhere in the tree. -/
theorem setPermsParts_preserves_sig (p : List String) :
    ∀ (t : FileSystemNode) (u perm : String) (t' : FileSystemNode),
      FileSystem.setPermsParts t p u perm = .ok t' →
      ∀ q, (FileSystem.traverse t' q).map nodeSig =
        (FileSystem.traverse t q).map nodeSig := by
  induction p with
  | nil =>
      intro t u perm t' hok q
      simp only [FileSystem.setPermsParts, Except.ok.injEq] at hok
      subst hok
      cases q with
      | nil =>
          simp [FileSystem.traverse, nodeSig, FileSystemNode.set_permissions]
      | cons k qs =>
          have heq : FileSystem.traverse (t.set_permissions u perm) (k :: qs) =
              FileSystem.traverse t (k :: qs) := by
            show FileSystem.traverse (t.withPermissions _) (k :: qs) = _
            simp only [FileSystem.traverse, is_file_withPermissions,
              children_withPermissions]
          rw [heq]
  | cons p ps ih =>
      intro t u perm t' hok q
      cases ht : t.is_file with
      | true => simp [FileSystem.setPermsParts, ht] at hok
      | false =>
          simp only [FileSystem.setPermsParts, ht, Bool.false_eq_true,
            if_false] at hok
          cases hl : lookupA t.children p with
          | none => simp [hl] at hok
          | some c =>
              simp only [hl] at hok
              cases hrec : FileSystem.setPermsParts c ps u perm with
              | error e => rw [hrec] at hok; simp [Except.map] at hok
              | ok c' =>
                  rw [hrec] at hok
                  simp only [Except.map, Except.ok.injEq] at hok
                  subst hok
                  cases q with
                  | nil =>
                      simp [FileSystem.traverse, nodeSig, keys_setA_found hl]
                  | cons k qs =>
                      by_cases hk : k = p
                      · subst hk
                        have h1 : FileSystem.traverse
                            (t.withChildren (setA t.children k c')) (k :: qs) =
                            FileSystem.traverse c' qs := by
                          simp [FileSystem.traverse, ht, lookupA_setA_self]
                        have h2 : FileSystem.traverse t (k :: qs) =
                            FileSystem.traverse c qs := by
                          simp [FileSystem.traverse, ht, hl]
                        rw [h1, h2]
                        exact ih c u perm c' hrec qs
                      · have h1 : FileSystem.traverse
                            (t.withChildren (setA t.children p c')) (k :: qs) =
                            FileSystem.traverse t (k :: qs) := by
                          simp only [FileSystem.traverse, is_file_withChildren,
                            children_withChildren]
                          rw [lookupA_setA_ne t.children c' hk]
                        rw [h1]

/-- `set_permissions` changes no permissions mapping anywhere except at the
resolved path. -/
theorem setPermsParts_preserves_other_permissions (p : List String) :
    ∀ (t : FileSystemNode) (u perm : String) (t' : FileSystemNode),
      FileSystem.setPermsParts t p u perm = .ok t' →
      ∀ q, q ≠ p →
        (FileSystem.traverse t' q).map FileSystemNode.permissions =
          (FileSystem.traverse t q).map FileSystemNode.permissions := by
  induction p with
  | nil =>
      intro t u perm t' hok q hq
      simp only [FileSystem.setPermsParts, Except.ok.injEq] at hok
      subst hok
      cases q with
      | nil => exact absurd rfl hq
      | cons k qs =>
          have heq : FileSystem.traverse (t.set_permissions u perm) (k :: qs) =
              FileSystem.traverse t (k :: qs) := by
            show FileSystem.traverse (t.withPermissions _) (k :: qs) = _
            simp only [FileSystem.traverse, is_file_withPermissions,
              children_withPermissions]
          rw [heq]
  | cons p ps ih =>
      intro t u perm t' hok q hq
      cases ht : t.is_file with
      | true => simp [FileSystem.setPermsParts, ht] at hok
      | false =>
          simp only [FileSystem.setPermsParts, ht, Bool.false_eq_true,
            if_false] at hok
          cases hl : lookupA t.children p with
          | none => simp [hl] at hok
          | some c =>
              simp only [hl] at hok
              cases hrec : FileSystem.setPermsParts c ps u perm with
              | error e => rw [hrec] at hok; simp [Except.map] at hok
              | ok c' =>
                  rw [hrec] at hok
                  simp only [Except.map, Except.ok.injEq] at hok
                  subst hok
                  cases q with
                  | nil => simp [FileSystem.traverse]
                  | cons k qs =>
                      by_cases hk : k = p
                      · subst hk
                        have hqs : qs ≠ ps := fun hh => hq (by rw [hh])
                        have h1 : FileSystem.traverse
                            (t.withChildren (setA t.children k c')) (k :: qs) =
                            FileSystem.traverse c' qs := by
                          simp [FileSystem.traverse, ht, lookupA_setA_self]
                        have h2 : FileSystem.traverse t (k :: qs) =
                            FileSystem.traverse c qs := by
                          simp [FileSystem.traverse, ht, hl]
                        rw [h1, h2]
                        exact ih c u perm c' hrec qs hqs
                      · have h1 : FileSystem.traverse
                            (t.withChildren (setA t.children p c')) (k :: qs) =
                            FileSystem.traverse t (k :: qs) := by
                          simp only [FileSystem.traverse, is_file_withChildren,
                            children_withChildren]
                          rw [lookupA_setA_ne t.children c' hk]
                        rw [h1]

/-- C10: a successful `set_permissions(path, user, perm)` only replaces the
`user` entry of the resolved node's permissions mapping: the resolved node
keeps every other user's entry, every node in the tree keeps its name, its
`is_file` flag and its ordered child names, and every other node keeps its
whole permissions mapping. -/
theorem set_permissions_frame (t : FileSystemNode) (path user perm : String)
    (t' : FileSystemNode)
    (h : FileSystem.set_permissions t path user perm = .ok t') :
    (∃ n, FileSystem.traverse t (pathParts path) = some n ∧
      FileSystem.traverse t' (pathParts path) =
        some (n.set_permissions user perm) ∧
      ∀ u', u' ≠ user →
        (n.set_permissions user perm).get_permissions u' =
          n.get_permissions u') ∧
    (∀ q, (FileSystem.traverse t' q).map nodeSig =
      (FileSystem.traverse t q).map nodeSig) ∧
    (∀ q, q ≠ pathParts path →
      (FileSystem.traverse t' q).map FileSystemNode.permissions =
        (FileSystem.traverse t q).map FileSystemNode.permissions) := by
  have h' : FileSystem.setPermsParts t (pathParts path) user perm = .ok t' := h
  refine ⟨?_, setPermsParts_preserves_sig _ t user perm t' h',
    setPermsParts_preserves_other_permissions _ t user perm t' h'⟩
  obtain ⟨n, hn, hn'⟩ := setPermsParts_resolves _ t user perm t' h'
  refine ⟨n, hn, hn', fun u' hu => ?_⟩
  show lookupA (n.set_permissions user perm).permissions u' =
    lookupA n.permissions u'
  rw [FileSystemNode.set_permissions, permissions_withPermissions]
  exact lookupA_setA_ne n.permissions perm hu

/-- the scenario tree after
`set_permissions("dir/subdir/file1.txt", "user1", "rwx")`. -/
def permTree : FileSystemNode :=
  match FileSystem.set_permissions scenarioTree "dir/subdir/file1.txt"
      "user1" "rwx" with
  | .ok x => x
  | .error _ => FileSystem.init

/-- witness for C10 on the scenario tree. -/
theorem set_permissions_frame_witness :
    (∃ n, FileSystem.traverse scenarioTree
        (pathParts "dir/subdir/file1.txt") = some n ∧
      FileSystem.traverse permTree (pathParts "dir/subdir/file1.txt") =
        some (n.set_permissions "user1" "rwx") ∧
      ∀ u', u' ≠ "user1" →
        (n.set_permissions "user1" "rwx").get_permissions u' =
          n.get_permissions u') ∧
    (∀ q, (FileSystem.traverse permTree q).map nodeSig =
      (FileSystem.traverse scenarioTree q).map nodeSig) ∧
    (∀ q, q ≠ pathParts "dir/subdir/file1.txt" →
      (FileSystem.traverse permTree q).map FileSystemNode.permissions =
        (FileSystem.traverse scenarioTree q).map FileSystemNode.permissions) :=
  set_permissions_frame scenarioTree "dir/subdir/file1.txt" "user1" "rwx"
    permTree (by rfl)

/-! ### Path strings: joining segments and `strip("/")` -/

/-- a usable path segment: non-empty and free of `'/'` (exactly what
`create`'s splitting produces for well-formed paths). -/
def SaneName (s : String) : Prop := s ≠ "" ∧ '/' ∉ s.toList

/-- a non-empty string with no leading and no trailing `'/'` — the shape of
the accumulator `search` threads through its recursion. -/
def SanePath (p : String) : Prop :=
  p.toList ≠ [] ∧ p.toList.head? ≠ some '/' ∧ p.toList.getLast? ≠ some '/'

/-- every child name in the tree is a sane segment. -/
inductive SaneNames : FileSystemNode → Prop
  | intro (n : FileSystemNode)
      (hname : ∀ s c, (s, c) ∈ n.children → SaneName s)
      (hrec : ∀ s c, (s, c) ∈ n.children → SaneNames c) :
      SaneNames n

theorem SaneNames.childSane {n : FileSystemNode} (h : SaneNames n)
    {s : String} {c : FileSystemNode} (hc : (s, c) ∈ n.children) :
    SaneName s ∧ SaneNames c := by
  cases h with
  | intro n hname hrec => exact ⟨hname s c hc, hrec s c hc⟩

/-- `'/'`-joining of a segment list (no leading slash). -/
def joinSegs : List String → String
  | [] => ""
  | [s] => s
  | s :: r :: rest => s ++ "/" ++ joinSegs (r :: rest)

theorem string_toList_append (a b : String) :
    (a ++ b).toList = a.toList ++ b.toList :=
  String.data_append a b

theorem string_mk_toList (s : String) : String.mk s.toList = s := rfl

theorem toList_ne_nil_of_ne_empty {s : String} (h : s ≠ "") :
    s.toList ≠ [] := by
  intro hl
  exact h (by cases s with | mk l => cases hl; rfl)

theorem ne_empty_of_toList_ne_nil {s : String} (h : s.toList ≠ []) :
    s ≠ "" := by
  intro he
  subst he
  exact h rfl

theorem mem_of_head?_eq {α : Type} {l : List α} {a : α}
    (h : l.head? = some a) : a ∈ l := by
  cases l with
  | nil => simp at h
  | cons b m => simp at h; simp [h]

theorem head?_append_left {α : Type} (xs ys : List α) (h : xs ≠ []) :
    (xs ++ ys).head? = xs.head? := by
  cases xs with
  | nil => exact absurd rfl h
  | cons a m => rfl

theorem getLast?_append_right {α : Type} (xs ys : List α) (h : ys ≠ []) :
    (xs ++ ys).getLast? = ys.getLast? := by
  rw [← List.head?_reverse, ← List.head?_reverse ys, List.reverse_append]
  exact head?_append_left _ _ (by simpa using h)

theorem mem_of_getLast?_eq {α : Type} {l : List α} {a : α}
    (h : l.getLast? = some a) : a ∈ l := by
  rw [← List.head?_reverse] at h
  exact List.mem_reverse.mp (mem_of_head?_eq h)

theorem dropWhile_slash_of_head {l : List Char} (hne : l ≠ [])
    (hh : l.head? ≠ some '/') : l.dropWhile (· = '/') = l := by
  cases l with
  | nil => exact absurd rfl hne
  | cons a m =>
      have ha : ¬ (a = '/') := fun h => hh (by simp [h])
      simp [List.dropWhile_cons, ha]

/-- a string with no leading and no trailing slash is unchanged by
`strip("/")`. -/
theorem pyStripSlash_eq_self {p : String} (hp : SanePath p) :
    pyStripSlash p = p := by
  obtain ⟨h1, h2, h3⟩ := hp
  unfold pyStripSlash
  rw [dropWhile_slash_of_head h1 h2]
  rw [dropWhile_slash_of_head (by simpa using h1)
    (by rw [List.head?_reverse]; exact h3)]
  rw [List.reverse_reverse]
  exact string_mk_toList p

theorem sanePath_of_saneName {cn : String} (h : SaneName cn) : SanePath cn := by
  refine ⟨toList_ne_nil_of_ne_empty h.1, ?_, ?_⟩
  · intro hh
    exact h.2 (mem_of_head?_eq hh)
  · intro hh
    exact h.2 (mem_of_getLast?_eq hh)

theorem toList_slash_append (p cn : String) :
    (p ++ "/" ++ cn).toList = p.toList ++ '/' :: cn.toList := by
  rw [string_toList_append, string_toList_append]
  simp

theorem sanePath_append {p cn : String} (hp : SanePath p) (h : SaneName cn) :
    SanePath (p ++ "/" ++ cn) := by
  obtain ⟨h1, h2, h3⟩ := hp
  refine ⟨?_, ?_, ?_⟩
  · rw [toList_slash_append]
    simp
  · rw [toList_slash_append, head?_append_left _ _ h1]
    exact h2
  · rw [toList_slash_append,
      getLast?_append_right _ _ (List.cons_ne_nil _ _)]
    cases hcn : cn.toList with
    | nil => exact absurd hcn (toList_ne_nil_of_ne_empty h.1)
    | cons a m =>
        rw [show ('/' :: a :: m).getLast? = (a :: m).getLast? from rfl]
        intro hh
        exact h.2 (by rw [hcn]; exact mem_of_getLast?_eq hh)

/-- the first accumulation step of `search`: from the empty accumulator,
`strip` turns `"/" ++ cn` into `cn`. -/
theorem strip_empty_step {cn : String} (h : SaneName cn) :
    pyStripSlash ("" ++ "/" ++ cn) = cn := by
  unfold pyStripSlash
  rw [toList_slash_append]
  show String.mk ((((['/'] ++ cn.toList).dropWhile (· = '/')).reverse.dropWhile
    (· = '/')).reverse) = cn
  rw [show (['/'] ++ cn.toList).dropWhile (· = '/') =
      cn.toList.dropWhile (· = '/') from by simp [List.dropWhile_cons]]
  have hsane := sanePath_of_saneName h
  rw [dropWhile_slash_of_head hsane.1 hsane.2.1]
  rw [dropWhile_slash_of_head (by simpa using hsane.1)
    (by rw [List.head?_reverse]; exact hsane.2.2)]
  rw [List.reverse_reverse]
  exact string_mk_toList cn

/-- the later accumulation steps of `search`: a sane accumulator gets no new
leading or trailing slash, so `strip` changes nothing. -/
theorem strip_sane_step {p cn : String} (hp : SanePath p) (h : SaneName cn) :
    pyStripSlash (p ++ "/" ++ cn) = p ++ "/" ++ cn :=
  pyStripSlash_eq_self (sanePath_append hp h)

/-- string append is associative. -/
theorem string_append_assoc (a b c : String) : a ++ b ++ c = a ++ (b ++ c) := by
  apply String.ext
  simp [String.data_append]

/-- whatever one child of the iterated dict contributes (its own match and,
for a directory, its subtree's matches) is in the result of
`searchChildren`. -/
theorem mem_searchChildren_of_child (q path : String)
    (cs : List (String × FileSystemNode)) (cn : String) (c : FileSystemNode)
    (hmem : (cn, c) ∈ cs) (x : String)
    (hx : x ∈ (if c.name = q then
        [if pyStripSlash (path ++ "/" ++ cn) = "" then "/"
         else pyStripSlash (path ++ "/" ++ cn)] else []) ++
      (if c.is_file then [] else
        FileSystem.searchChildren q c.children
          (pyStripSlash (path ++ "/" ++ cn)))) :
    x ∈ FileSystem.searchChildren q cs path := by
  induction cs with
  | nil => simp at hmem
  | cons hd rest ih =>
      obtain ⟨k, node⟩ := hd
      obtain ⟨nm, f, ccs, pp⟩ := node
      rcases List.mem_cons.mp hmem with heq | hmem'
      · injection heq with h1 h2
        subst h1
        subst h2
        simp only [FileSystemNode.name, FileSystemNode.is_file,
          FileSystemNode.children] at hx
        simp only [FileSystem.searchChildren, List.mem_append]
        simp only [List.mem_append] at hx
        tauto
      · have hrest := ih hmem'
        simp only [FileSystem.searchChildren, List.mem_append]
        tauto

/-- completeness of the depth-first walk: a node reached from `parent` by
the non-empty segment list `segs` whose name is `q` contributes the
`'/'`-joined continuation of the accumulator to the result. -/
theorem searchChildren_complete (segs : List String) :
    ∀ (parent : FileSystemNode) (path q : String) (n : FileSystemNode),
      SaneNames parent → (path = "" ∨ SanePath path) → segs ≠ [] →
      FileSystem.traverse parent segs = some n → n.name = q →
      (if path = "" then joinSegs segs else path ++ "/" ++ joinSegs segs) ∈
        FileSystem.searchChildren q parent.children path := by
  induction segs with
  | nil => intro parent path q n _ _ hne _ _; exact absurd rfl hne
  | cons cn rest ih =>
      intro parent path q n hs hp _ htr hq
      cases ht : parent.is_file with
      | true => simp [FileSystem.traverse, ht] at htr
      | false =>
          cases hl : lookupA parent.children cn with
          | none => simp [FileSystem.traverse, ht, hl] at htr
          | some c =>
              have htr' : FileSystem.traverse c rest = some n := by
                simpa [FileSystem.traverse, ht, hl] using htr
              have hmem := lookupA_mem hl
              obtain ⟨hcn_sane, hc_sane⟩ := hs.childSane hmem
              have hstep : pyStripSlash (path ++ "/" ++ cn) =
                  (if path = "" then cn else path ++ "/" ++ cn) := by
                rcases hp with rfl | hp
                · rw [if_pos rfl]; exact strip_empty_step hcn_sane
                · rw [if_neg (ne_empty_of_toList_ne_nil hp.1)]
                  exact strip_sane_step hp hcn_sane
              have hcp_sane : SanePath (pyStripSlash (path ++ "/" ++ cn)) := by
                rw [hstep]
                rcases hp with rfl | hp
                · rw [if_pos rfl]; exact sanePath_of_saneName hcn_sane
                · rw [if_neg (ne_empty_of_toList_ne_nil hp.1)]
                  exact sanePath_append hp hcn_sane
              have hne' : pyStripSlash (path ++ "/" ++ cn) ≠ "" :=
                ne_empty_of_toList_ne_nil hcp_sane.1
              cases rest with
              | nil =>
                  obtain rfl : c = n := by
                    simpa [FileSystem.traverse] using htr'
                  have hx0 : (if path = "" then joinSegs [cn]
                      else path ++ "/" ++ joinSegs [cn]) =
                      pyStripSlash (path ++ "/" ++ cn) := by
                    rw [hstep]
                    simp [joinSegs]
                  rw [hx0]
                  apply mem_searchChildren_of_child q path parent.children cn
                    c hmem
                  apply List.mem_append_left
                  rw [if_pos hq, if_neg hne']
                  exact List.mem_singleton.mpr rfl
              | cons r rs =>
                  have hcf : c.is_file = false := by
                    cases hcf' : c.is_file
                    · rfl
                    · simp [FileSystem.traverse, hcf'] at htr'
                  have ihx := ih c (pyStripSlash (path ++ "/" ++ cn)) q n
                    hc_sane (Or.inr hcp_sane) (by simp) htr' hq
                  rw [if_neg hne'] at ihx
                  have hval : pyStripSlash (path ++ "/" ++ cn) ++ "/" ++
                      joinSegs (r :: rs) =
                      (if path = "" then joinSegs (cn :: r :: rs)
                       else path ++ "/" ++ joinSegs (cn :: r :: rs)) := by
                    rw [hstep]
                    rcases hp with rfl | hp
                    · rw [if_pos rfl, if_pos rfl]
                      rfl
                    · rw [if_neg (ne_empty_of_toList_ne_nil hp.1),
                        if_neg (ne_empty_of_toList_ne_nil hp.1)]
                      show path ++ "/" ++ cn ++ "/" ++ joinSegs (r :: rs) =
                        path ++ "/" ++ (cn ++ "/" ++ joinSegs (r :: rs))
                      simp [string_append_assoc]
                  rw [hval] at ihx
                  apply mem_searchChildren_of_child q path parent.children cn
                    c hmem
                  apply List.mem_append_right
                  rw [hcf]
                  simpa using ihx

/-- with unique keys, the dict lookup finds exactly the iterated binding. -/
theorem lookupA_of_mem_nodup {α : Type} {l : List (String × α)} {k : String}
    {v : α} (hnd : (l.map Prod.fst).Nodup) (hmem : (k, v) ∈ l) :
    lookupA l k = some v := by
  induction l with
  | nil => simp at hmem
  | cons hd tl ih =>
      obtain ⟨k', v'⟩ := hd
      simp only [List.map_cons, List.nodup_cons] at hnd
      rcases List.mem_cons.mp hmem with heq | hmem'
      · injection heq with h1 h2
        subst h1; subst h2
        simp [lookupA]
      · by_cases hk : k' = k
        · subst hk
          exact absurd (by simpa using List.mem_map_of_mem Prod.fst hmem')
            hnd.1
        · simp only [lookupA, if_neg hk]
          exact ih hnd.2 hmem'

/-- soundness of the depth-first walk: every string `searchChildren` emits is
the `'/'`-joined continuation of the accumulator along a resolving segment
list that ends at a node named `q`. -/
theorem searchChildren_sound_aux (N : Nat) :
    ∀ (cs : List (String × FileSystemNode)), sizeOf cs < N →
    ∀ (parent : FileSystemNode) (path q r : String),
      (∀ x, x ∈ cs → x ∈ parent.children) →
      SaneNames parent → NodupChildKeys parent → parent.is_file = false →
      (path = "" ∨ SanePath path) →
      r ∈ FileSystem.searchChildren q cs path →
      ∃ segs n, segs ≠ [] ∧ FileSystem.traverse parent segs = some n ∧
        n.name = q ∧
        r = (if path = "" then joinSegs segs
             else path ++ "/" ++ joinSegs segs) := by
  induction N with
  | zero => intro cs h; exact absurd h (Nat.not_lt_zero _)
  | succ N ih =>
      intro cs hsz parent path q r hsub hs hnk hpf hp hr
      cases cs with
      | nil => simp [FileSystem.searchChildren] at hr
      | cons hd rest =>
          obtain ⟨cn, node⟩ := hd
          obtain ⟨nm, f, ccs, pp⟩ := node
          have hmem0 : (cn, FileSystemNode.mk nm f ccs pp) ∈ parent.children :=
            hsub _ (List.mem_cons_self _ _)
          have hcn_sane : SaneName cn := (hs.childSane hmem0).1
          have hstep : pyStripSlash (path ++ "/" ++ cn) =
              (if path = "" then cn else path ++ "/" ++ cn) := by
            rcases hp with rfl | hp'
            · rw [if_pos rfl]; exact strip_empty_step hcn_sane
            · rw [if_neg (ne_empty_of_toList_ne_nil hp'.1)]
              exact strip_sane_step hp' hcn_sane
          have hcp_sane : SanePath (pyStripSlash (path ++ "/" ++ cn)) := by
            rw [hstep]
            rcases hp with rfl | hp'
            · rw [if_pos rfl]; exact sanePath_of_saneName hcn_sane
            · rw [if_neg (ne_empty_of_toList_ne_nil hp'.1)]
              exact sanePath_append hp' hcn_sane
          have hne' : pyStripSlash (path ++ "/" ++ cn) ≠ "" :=
            ne_empty_of_toList_ne_nil hcp_sane.1
          have htrv : FileSystem.traverse parent [cn] =
              some (FileSystemNode.mk nm f ccs pp) := by
            simp [FileSystem.traverse, hpf,
              lookupA_of_mem_nodup hnk.keys hmem0]
          simp only [FileSystem.searchChildren, List.mem_append] at hr
          rcases hr with (hA | hB) | hC
          · by_cases hq : nm = q
            · rw [if_pos hq, if_neg hne', List.mem_singleton] at hA
              refine ⟨[cn], .mk nm f ccs pp, by simp, htrv, hq, ?_⟩
              rw [hA, hstep]
              simp [joinSegs]
            · rw [if_neg hq] at hA
              simp at hA
          · by_cases hf : f = true
            · rw [if_pos hf] at hB; simp at hB
            · have hf' : f = false := by
                cases f
                · rfl
                · exact absurd rfl hf
              rw [if_neg hf] at hB
              have hszc : sizeOf ccs < N := by
                have h1 : sizeOf ccs <
                    sizeOf ((cn, FileSystemNode.mk nm f ccs pp) :: rest) := by
                  simp only [List.cons.sizeOf_spec, Prod.mk.sizeOf_spec,
                    FileSystemNode.mk.sizeOf_spec]
                  omega
                omega
              obtain ⟨segs, n, hne, htr, hq, hreq⟩ :=
                ih ccs hszc (.mk nm f ccs pp)
                  (pyStripSlash (path ++ "/" ++ cn)) q r
                  (fun x hx => by
                    simpa [FileSystemNode.children] using hx)
                  (hs.childSane hmem0).2 (hnk.nkChild hmem0)
                  (by simp [FileSystemNode.is_file, hf'])
                  (Or.inr hcp_sane) hB
              refine ⟨cn :: segs, n, by simp, ?_, hq, ?_⟩
              · simp only [FileSystem.traverse, hpf, Bool.false_eq_true,
                  if_false, lookupA_of_mem_nodup hnk.keys hmem0]
                exact htr
              · rw [if_neg hne'] at hreq
                rw [hreq, hstep]
                cases segs with
                | nil => exact absurd rfl hne
                | cons s1 srest =>
                    rcases hp with rfl | hp'
                    · rw [if_pos rfl, if_pos rfl]
                      rfl
                    · rw [if_neg (ne_empty_of_toList_ne_nil hp'.1),
                        if_neg (ne_empty_of_toList_ne_nil hp'.1)]
                      show path ++ "/" ++ cn ++ "/" ++
                          joinSegs (s1 :: srest) =
                        path ++ "/" ++ (cn ++ "/" ++ joinSegs (s1 :: srest))
                      simp [string_append_assoc]
          · have hszr : sizeOf rest < N := by
              have h1 : sizeOf rest <
                  sizeOf ((cn, FileSystemNode.mk nm f ccs pp) :: rest) := by
                simp only [List.cons.sizeOf_spec]
                omega
              omega
            exact ih rest hszr parent path q r
              (fun x hx => hsub x (List.mem_cons_of_mem _ hx)) hs hnk hpf hp hC

/-- soundness of `search` from the root: every returned string is either
`"/"` for a root match or the `'/'`-joined (leading-slash-free) path of a
node whose name is the query. -/
theorem search_sound (t : FileSystemNode) (q r : String)
    (hs : SaneNames t) (hnk : NodupChildKeys t)
    (hr : r ∈ FileSystem.search t q) :
    (r = "/" ∧ t.name = q) ∨
    ∃ segs n, segs ≠ [] ∧ FileSystem.traverse t segs = some n ∧
      n.name = q ∧ r = joinSegs segs := by
  simp only [FileSystem.search, List.mem_append] at hr
  rcases hr with hA | hB
  · by_cases hq : t.name = q
    · rw [if_pos hq, List.mem_singleton] at hA
      exact Or.inl ⟨hA, hq⟩
    · rw [if_neg hq] at hA; simp at hA
  · by_cases hf : t.is_file = true
    · rw [if_pos hf] at hB; simp at hB
    · have hf' : t.is_file = false := by
        cases hft : t.is_file
        · rfl
        · exact absurd hft hf
      rw [if_neg hf] at hB
      obtain ⟨segs, n, hne, htr, hq, hreq⟩ :=
        searchChildren_sound_aux (sizeOf t.children + 1) t.children
          (by omega) t "" q r (fun x hx => hx) hs hnk hf' (Or.inl rfl) hB
      rw [if_pos rfl] at hreq
      exact Or.inr ⟨segs, n, hne, htr, hq, hreq⟩

/-- the scenario tree's child names are sane segments. -/
theorem saneNames_scenarioTree : SaneNames scenarioTree := by
  have leaf1 : SaneNames (FileSystemNode.mk "file1.txt" true [] []) :=
    .intro _ (fun s c hc => absurd hc (by simp [FileSystemNode.children]))
      (fun s c hc => absurd hc (by simp [FileSystemNode.children]))
  have leaf3 : SaneNames (FileSystemNode.mk "file3.txt" true [] []) :=
    .intro _ (fun s c hc => absurd hc (by simp [FileSystemNode.children]))
      (fun s c hc => absurd hc (by simp [FileSystemNode.children]))
  have hsub : SaneNames (FileSystemNode.mk "subdir" false
      [("file1.txt", .mk "file1.txt" true [] [])] []) := by
    refine .intro _ (fun s c hc => ?_) fun s c hc => ?_ <;>
      simp only [FileSystemNode.children, List.mem_singleton,
        Prod.mk.injEq] at hc <;>
      obtain ⟨rfl, rfl⟩ := hc
    · exact ⟨by decide, by decide⟩
    · exact leaf1
  have hdir : SaneNames (FileSystemNode.mk "dir" false
      [("subdir", .mk "subdir" false
        [("file1.txt", .mk "file1.txt" true [] [])] []),
       ("file3.txt", .mk "file3.txt" true [] [])] []) := by
    refine .intro _ (fun s c hc => ?_) fun s c hc => ?_ <;>
      simp only [FileSystemNode.children, List.mem_cons, List.not_mem_nil,
        or_false, Prod.mk.injEq] at hc <;>
      rcases hc with ⟨rfl, rfl⟩ | ⟨rfl, rfl⟩
    · exact ⟨by decide, by decide⟩
    · exact ⟨by decide, by decide⟩
    · exact hsub
    · exact leaf3
  rw [scenarioTree_eq]
  refine .intro _ (fun s c hc => ?_) fun s c hc => ?_ <;>
    simp only [FileSystemNode.children, List.mem_singleton,
      Prod.mk.injEq] at hc <;>
    obtain ⟨rfl, rfl⟩ := hc
  · exact ⟨by decide, by decide⟩
  · exact hdir

/-- C1 (amended): `search(q)` reports the full root-relative `'/'`-separated
path of every matching node, but *without* the leading slash (the code
passes the accumulated path through `strip("//")`, which strips `'/'`
characters from both ends); a match at the root itself is reported as `"/"`.
Both directions hold for trees whose child names are non-empty and
slash-free (`SaneNames`, true of every tree built from well-formed paths):
every matching node's joined path is returned, and every returned string is
such a path (the converse also needs `NodupChildKeys`).  In the section 8
scenario `search("file1.txt")` returns exactly `["dir/subdir/file1.txt"]`. -/
theorem search_returns_stripped_paths :
    (∀ (t : FileSystemNode) (q : String) (segs : List String)
        (n : FileSystemNode), SaneNames t → segs ≠ [] →
        FileSystem.traverse t segs = some n → n.name = q →
        joinSegs segs ∈ FileSystem.search t q) ∧
    (∀ (t : FileSystemNode) (q r : String), SaneNames t →
      NodupChildKeys t → r ∈ FileSystem.search t q →
      (r = "/" ∧ t.name = q) ∨
      ∃ segs n, segs ≠ [] ∧ FileSystem.traverse t segs = some n ∧
        n.name = q ∧ r = joinSegs segs) ∧
    (∀ (t : FileSystemNode) (q : String), t.name = q →
      "/" ∈ FileSystem.search t q) ∧
    FileSystem.search scenarioTree "file1.txt" = ["dir/subdir/file1.txt"] ∧
    FileSystem.search scenarioTree "/" = ["/"] := by
  refine ⟨?_, fun t q r hs hnk hr => search_sound t q r hs hnk hr, ?_, ?_, ?_⟩
  · intro t q segs n hs hne htr hq
    have htf : t.is_file = false := by
      cases segs with
      | nil => exact absurd rfl hne
      | cons a l =>
          cases htf' : t.is_file
          · rfl
          · simp [FileSystem.traverse, htf'] at htr
    have h := searchChildren_complete segs t "" q n hs (Or.inl rfl) hne htr hq
    rw [if_pos rfl] at h
    simp only [FileSystem.search, htf, Bool.false_eq_true, if_false]
    exact List.mem_append_right _ h
  · intro t q hq
    simp [FileSystem.search, hq]
  · rw [scenarioTree_eq]
    simp only [FileSystem.search, FileSystemNode.name,
      FileSystemNode.is_file, FileSystemNode.children,
      FileSystem.searchChildren]
    decide
  · rw [scenarioTree_eq]
    simp only [FileSystem.search, FileSystemNode.name,
      FileSystemNode.is_file, FileSystemNode.children,
      FileSystem.searchChildren]
    decide

/-- witness for C1 (amended): the path of `dir/file3.txt` is reported,
without a leading slash, by `search("file3.txt")` on the scenario tree. -/
theorem search_returns_stripped_paths_witness :
    joinSegs ["dir", "file3.txt"] ∈ FileSystem.search scenarioTree
      "file3.txt" :=
  search_returns_stripped_paths.1 scenarioTree "file3.txt"
    ["dir", "file3.txt"] (.mk "file3.txt" true [] [])
    saneNames_scenarioTree (by simp) (by rfl) (by rfl)
